import Mathlib

/-!
Verification of the green-space record store (src/src/backend/src/lib.rs).

The Rust canister keeps two pieces of stable state: a u64 id counter
(`GREEN_SPACE_ID_COUNTER`, initialised to 0) and an ordered map from u64 keys
to `GreenSpace` records (`GREEN_SPACE_STORAGE`, a `StableBTreeMap`).  We embed
that state as an explicit value threaded through each operation: the counter
becomes a `Nat` (u64 overflow is unreachable for an incrementing counter in
any feasible run) and the `StableBTreeMap` becomes an association list kept in
ascending key order, which is the iteration order `StableBTreeMap::iter`
provides.  Each exported canister function becomes a Lean function from the
state (plus its arguments) to its return value, paired with the successor
state for the update methods.

`ic_stable_structures::Cell::set` stores the new value and returns the value
previously held, so `add_green_space` uses the pre-increment counter value as
the fresh id: the first issued id is 0.
-/

namespace GreenSpaceUrban

/-- The record type of the canister.  `id` is a u64 in the source, embedded as
`Nat`. -/
structure GreenSpace where
  id : Nat
  name : String
  location : String
  description : String
deriving DecidableEq

/-- The creation / update payload: the three text fields without the id. -/
structure GreenSpaceUpdatePayload where
  name : String
  location : String
  description : String
deriving DecidableEq

/-- The error enum of the source: a single `NotFound` variant carrying a
message. -/
inductive Error where
  | NotFound (msg : String)
deriving DecidableEq

/-- `charsStartWith q l` holds when the character list `l` begins with `q`. -/
def charsStartWith : List Char → List Char → Bool
  | [], _ => true
  | _ :: _, [] => false
  | a :: q, b :: l => if a = b then charsStartWith q l else false

/-- `charsContain l q` holds when `q` occurs contiguously somewhere inside
`l`. -/
def charsContain : List Char → List Char → Bool
  | [], q => charsStartWith q []
  | a :: l, q => charsStartWith q (a :: l) || charsContain l q

/-- Embedding of Rust `str::contains` for a string pattern: case-sensitive
substring containment. -/
def strContains (hay q : String) : Bool :=
  charsContain hay.data q.data

/-- `StableBTreeMap::insert`: insert or overwrite, keeping keys ordered. -/
def mapInsert (k : Nat) (v : GreenSpace) :
    List (Nat × GreenSpace) → List (Nat × GreenSpace)
  | [] => [(k, v)]
  | (k₁, v₁) :: rest =>
    if k < k₁ then (k, v) :: (k₁, v₁) :: rest
    else if k = k₁ then (k, v) :: rest
    else (k₁, v₁) :: mapInsert k v rest

/-- `StableBTreeMap::get`: exact key lookup. -/
def mapGet (k : Nat) : List (Nat × GreenSpace) → Option GreenSpace
  | [] => none
  | (k₁, v₁) :: rest => if k = k₁ then some v₁ else mapGet k rest

/-- `StableBTreeMap::remove`: delete the entry for `k`, returning the prior
value (if any) together with the remaining map. -/
def mapRemove (k : Nat) :
    List (Nat × GreenSpace) → Option GreenSpace × List (Nat × GreenSpace)
  | [] => (none, [])
  | (k₁, v₁) :: rest =>
    if k = k₁ then (some v₁, rest)
    else
      let r := mapRemove k rest
      (r.1, (k₁, v₁) :: r.2)

/-- The mutable canister state: the id counter cell and the record map. -/
structure AppState where
  counter : Nat
  store : List (Nat × GreenSpace)
deriving DecidableEq

/-- The state at first deployment: counter 0, empty map. -/
def initState : AppState := ⟨0, []⟩

/-- Helper `do_insert_green_space`: writes `space` through to the storage map
under the key `space.id`. -/
def do_insert_green_space (space : GreenSpace) (s : AppState) : AppState :=
  { s with store := mapInsert space.id space s.store }

/-- `add_green_space`: reads the counter, stores counter + 1 back into the
cell, and uses the value returned by `Cell::set` — the previous counter
value — as the id of the new record, which is inserted and returned.  There
is no validation of the payload. -/
def add_green_space (s : AppState) (space : GreenSpaceUpdatePayload) :
    Option GreenSpace × AppState :=
  let id := s.counter
  let s₁ : AppState := { s with counter := s.counter + 1 }
  let green_space : GreenSpace :=
    ⟨id, space.name, space.location, space.description⟩
  (some green_space, do_insert_green_space green_space s₁)

/-- A single straight apostrophe, needed to spell the error messages of the
source verbatim. -/
def apostrophe : String := String.singleton (Char.ofNat 39)

/-- `get_green_space`: lookup by id, `NotFound` with a message naming the id
when absent. -/
def get_green_space (s : AppState) (id : Nat) : Except Error GreenSpace :=
  match mapGet id s.store with
  | some space => .ok space
  | none =>
    .error (.NotFound ("A green space with id=" ++ toString id ++ " not found"))

/-- `update_green_space`: full replacement of the three text fields of an
existing record; `NotFound` when the id is absent. -/
def update_green_space (s : AppState) (id : Nat)
    (payload : GreenSpaceUpdatePayload) : Except Error GreenSpace × AppState :=
  match mapGet id s.store with
  | some space =>
    let space₁ : GreenSpace :=
      { space with
        name := payload.name
        location := payload.location
        description := payload.description }
    (.ok space₁, do_insert_green_space space₁ s)
  | none =>
    (.error (.NotFound ("Couldn" ++ apostrophe ++
      "t update a green space with id=" ++ toString id ++
      ". Space not found")), s)

/-- `delete_green_space`: remove by id, returning the removed record, or
`NotFound` when absent. -/
def delete_green_space (s : AppState) (id : Nat) :
    Except Error GreenSpace × AppState :=
  let r := mapRemove id s.store
  match r.1 with
  | some space => (.ok space, { s with store := r.2 })
  | none =>
    (.error (.NotFound ("Couldn" ++ apostrophe ++
      "t delete a green space with id=" ++ toString id ++
      ". Space not found")), { s with store := r.2 })

/-- `get_all_green_spaces`: every stored record, in the ascending key order of
the map iteration. -/
def get_all_green_spaces (s : AppState) : Except Error (List GreenSpace) :=
  .ok (s.store.map Prod.snd)

/-- `search_green_spaces_by_name`: keep the records whose `name` contains the
query as a substring. -/
def search_green_spaces_by_name (s : AppState) (name : String) :
    Except Error (List GreenSpace) :=
  .ok (s.store.filterMap fun kv =>
    if strContains kv.2.name name then some kv.2 else none)

/-- `search_green_spaces_by_description`: keep the records whose
`description` contains the query as a substring. -/
def search_green_spaces_by_description (s : AppState) (keyword : String) :
    Except Error (List GreenSpace) :=
  .ok (s.store.filterMap fun kv =>
    if strContains kv.2.description keyword then some kv.2 else none)

/-- `update_green_space_location`: partial update replacing only `location`;
`NotFound` when the id is absent. -/
def update_green_space_location (s : AppState) (id : Nat)
    (new_location : String) : Except Error GreenSpace × AppState :=
  match mapGet id s.store with
  | some space =>
    let space₁ : GreenSpace := { space with location := new_location }
    (.ok space₁, do_insert_green_space space₁ s)
  | none =>
    (.error (.NotFound ("Couldn" ++ apostrophe ++
      "t update location for green space with id=" ++ toString id ++
      ". Space not found")), s)

/-- `get_green_space_count`: the number of stored records. -/
def get_green_space_count (s : AppState) : Except Error Nat :=
  .ok s.store.length

/-- `search_green_spaces_by_location`: keep the records whose `location`
contains the query as a substring. -/
def search_green_spaces_by_location (s : AppState) (location : String) :
    Except Error (List GreenSpace) :=
  .ok (s.store.filterMap fun kv =>
    if strContains kv.2.location location then some kv.2 else none)

/-- The mutating operations that the id-allocation claims quantify over. -/
inductive Op where
  | addSpace (p : GreenSpaceUpdatePayload)
  | delSpace (id : Nat)

/-- Apply one operation, returning the successor state and the ids issued by
it (one for an add, none for a delete). -/
def applyOp (s : AppState) : Op → AppState × List Nat
  | .addSpace p =>
    let r := add_green_space s p
    (r.2, match r.1 with | some g => [g.id] | none => [])
  | .delSpace id => ((delete_green_space s id).2, [])

/-- Run a sequence of operations, collecting every id issued by an add, in
call order. -/
def runOps (s : AppState) : List Op → AppState × List Nat
  | [] => (s, [])
  | op :: ops =>
    let r := applyOp s op
    let r₁ := runOps r.1 ops
    (r₁.1, r.2 ++ r₁.2)

/-- Little-endian base-128 encoding with continuation bits (LEB128), the
variable-length integer format of the record encoding. -/
def leb (n : Nat) : List Nat :=
  if n < 128 then [n] else (n % 128 + 128) :: leb (n / 128)
termination_by n
decreasing_by exact Nat.div_lt_self (by omega) (by omega)

/-- Strict LEB128 decoder: reads one integer off the front of the byte list
and returns it with the remaining bytes.  It rejects non-bytes, truncated
input and non-minimal encodings, so it accepts exactly the output of
`leb`. -/
def lebDecode : List Nat → Option (Nat × List Nat)
  | [] => none
  | b :: rest =>
    if b < 128 then some (b, rest)
    else if b < 256 then
      match lebDecode rest with
      | some (m, rest₁) =>
        if m = 0 then none else some ((b - 128) + 128 * m, rest₁)
      | none => none
    else none

/-- Byte encoding of a character sequence: each scalar value as LEB128. -/
def charsEnc : List Char → List Nat
  | [] => []
  | c :: cs => leb c.toNat ++ charsEnc cs

/-- Decoder for `charsEnc`, reading exactly `k` characters and rejecting
invalid scalar values. -/
def charsDec : Nat → List Nat → Option (List Char × List Nat)
  | 0, bs => some ([], bs)
  | k + 1, bs =>
    match lebDecode bs with
    | some (n, bs₁) =>
      if n.isValidChar then
        match charsDec k bs₁ with
        | some (cs, rest) => some (Char.ofNat n :: cs, rest)
        | none => none
      else none
    | none => none

/-- Byte encoding of a text field: LEB128 character count, then the
characters. -/
def strEnc (s : String) : List Nat :=
  leb s.data.length ++ charsEnc s.data

/-- Decoder for `strEnc`. -/
def strDec (bs : List Nat) : Option (String × List Nat) :=
  match lebDecode bs with
  | some (k, bs₁) =>
    match charsDec k bs₁ with
    | some (cs, rest) => some (String.mk cs, rest)
    | none => none
  | none => none

/-- The four magic bytes heading every encoded record, spelling DIDL. -/
def MAGIC : List Nat := [68, 73, 68, 76]

/-- `BoundedStorable::MAX_SIZE` for `GreenSpace`. -/
def MAX_SIZE : Nat := 1024

/-- Modelled from the spec: `Storable::to_bytes` delegates to the candid
crate macro `Encode!`, whose implementation is not part of this repository;
per the spec it is a self-describing binary encoding of the record fields.
This model emits the magic header, the id, then the three text fields. -/
def to_bytes (r : GreenSpace) : List Nat :=
  MAGIC ++ leb r.id ++ strEnc r.name ++ strEnc r.location ++ strEnc r.description

/-- Modelled from the spec: `Storable::from_bytes` delegates to the candid
crate macro `Decode!`, whose implementation is not part of this repository.
This model parses exactly the output format of `to_bytes`, yielding `none` on
any malformed input. -/
def from_bytes (bs : List Nat) : Option GreenSpace :=
  match bs with
  | m₀ :: m₁ :: m₂ :: m₃ :: bs₀ =>
    if m₀ = 68 ∧ m₁ = 73 ∧ m₂ = 68 ∧ m₃ = 76 then
      match lebDecode bs₀ with
      | some (id, bs₁) =>
        match strDec bs₁ with
        | some (name, bs₂) =>
          match strDec bs₂ with
          | some (location, bs₃) =>
            match strDec bs₃ with
            | some (description, bs₄) =>
              match bs₄ with
              | [] => some ⟨id, name, location, description⟩
              | _ :: _ => none
            | none => none
          | none => none
        | none => none
      | none => none
    else none
  | _ => none

/-- The storage invariant every reachable state satisfies: the map keys are
strictly ascending (as `StableBTreeMap` guarantees) and every entry is stored
under the key equal to its record id (as `do_insert_green_space` guarantees). -/
def StoreWF (l : List (Nat × GreenSpace)) : Prop :=
  List.Pairwise (fun a b => a.1 < b.1) l ∧ ∀ kv ∈ l, kv.1 = kv.2.id

/-- A sample record used to instantiate hypotheses at concrete inputs. -/
def exSpace : GreenSpace := ⟨2, "Central Park", "NYC", "Big park"⟩

/-- A second sample record with a smaller id. -/
def exSpace₀ : GreenSpace := ⟨0, "Garden", "LA", "Small green"⟩

/-- A sample state holding `exSpace` under key 2. -/
def exState : AppState := ⟨5, [(2, exSpace)]⟩

/-- A sample state holding two records in ascending key order. -/
def exState₂ : AppState := ⟨5, [(0, exSpace₀), (2, exSpace)]⟩

/-- A sample creation payload. -/
def exPayload : GreenSpaceUpdatePayload := ⟨"Trails", "Berlin", "Lakeside"⟩

theorem charsStartWith_iff (q l : List Char) :
    charsStartWith q l = true ↔ ∃ t, l = q ++ t := by
  induction q generalizing l with
  | nil => simp [charsStartWith]
  | cons a as ih =>
    cases l with
    | nil => simp [charsStartWith]
    | cons b bs =>
      by_cases hab : a = b
      · subst hab
        simpa [charsStartWith] using ih bs
      · simp only [charsStartWith, if_neg hab, Bool.false_eq_true, false_iff]
        rintro ⟨t, ht⟩
        injection ht with h₁ _
        exact hab h₁.symm

theorem charsContain_iff (l q : List Char) :
    charsContain l q = true ↔ ∃ p t, l = p ++ q ++ t := by
  induction l with
  | nil =>
    simp only [charsContain, charsStartWith_iff]
    constructor
    · rintro ⟨t, ht⟩
      exact ⟨[], t, by simpa using ht⟩
    · rintro ⟨p, t, ht⟩
      have h₁ : p ++ q ++ t = [] := ht.symm
      rcases List.append_eq_nil.1 h₁ with ⟨h₂, h₃⟩
      rcases List.append_eq_nil.1 h₂ with ⟨h₄, h₅⟩
      exact ⟨t, by simp [h₅, h₃]⟩
  | cons a l ih =>
    simp only [charsContain, Bool.or_eq_true, charsStartWith_iff, ih]
    constructor
    · rintro (⟨t, ht⟩ | ⟨p, t, ht⟩)
      · exact ⟨[], t, by simpa using ht⟩
      · exact ⟨a :: p, t, by simp [ht]⟩
    · rintro ⟨p, t, ht⟩
      cases p with
      | nil => exact Or.inl ⟨t, by simpa using ht⟩
      | cons x p =>
        right
        injection ht with h₁ h₂
        exact ⟨p, t, h₂⟩

theorem strContains_iff (hay q : String) :
    strContains hay q = true ↔ ∃ p t, hay.data = p ++ q.data ++ t :=
  charsContain_iff hay.data q.data

theorem strContains_append (a q b : String) :
    strContains (a ++ q ++ b) q = true :=
  (strContains_iff (a ++ q ++ b) q).2
    ⟨a.data, b.data, by simp [String.data_append]⟩

theorem strContains_empty (hay : String) : strContains hay "" = true :=
  (strContains_iff hay "").2 ⟨[], hay.data, by simp⟩

theorem mapGet_mapInsert_self (k : Nat) (v : GreenSpace)
    (l : List (Nat × GreenSpace)) : mapGet k (mapInsert k v l) = some v := by
  induction l with
  | nil => simp [mapInsert, mapGet]
  | cons kv rest ih =>
    obtain ⟨k₁, v₁⟩ := kv
    by_cases h₁ : k < k₁
    · simp [mapInsert, h₁, mapGet]
    · by_cases h₂ : k = k₁
      · simp [mapInsert, h₁, h₂, mapGet]
      · simp [mapInsert, h₁, h₂, mapGet, ih]

theorem mapGet_mem (k : Nat) (v : GreenSpace) (l : List (Nat × GreenSpace)) :
    mapGet k l = some v → (k, v) ∈ l := by
  induction l with
  | nil => simp [mapGet]
  | cons kv rest ih =>
    obtain ⟨k₁, v₁⟩ := kv
    intro hv
    by_cases h : k = k₁
    · subst h
      simp only [mapGet, if_pos rfl] at hv
      injection hv with hv
      subst hv
      exact List.mem_cons_self _ _
    · simp only [mapGet, if_neg h] at hv
      exact List.mem_cons_of_mem _ (ih hv)

theorem mapGet_eq_none_of (k : Nat) (l : List (Nat × GreenSpace))
    (h : ∀ kv ∈ l, kv.1 ≠ k) : mapGet k l = none := by
  induction l with
  | nil => simp [mapGet]
  | cons kv rest ih =>
    obtain ⟨k₁, v₁⟩ := kv
    have hne : k ≠ k₁ := fun he => h (k₁, v₁) (List.mem_cons_self _ _) he.symm
    simp only [mapGet, if_neg hne]
    exact ih fun kv hm => h kv (List.mem_cons_of_mem _ hm)

theorem mapRemove_fst (k : Nat) (l : List (Nat × GreenSpace)) :
    (mapRemove k l).1 = mapGet k l := by
  induction l with
  | nil => simp [mapRemove, mapGet]
  | cons kv rest ih =>
    obtain ⟨k₁, v₁⟩ := kv
    by_cases h : k = k₁
    · simp [mapRemove, mapGet, h]
    · simp [mapRemove, mapGet, h, ih]

theorem mapRemove_none (k : Nat) (l : List (Nat × GreenSpace)) :
    (mapRemove k l).1 = none → (mapRemove k l).2 = l := by
  induction l with
  | nil => simp [mapRemove]
  | cons kv rest ih =>
    obtain ⟨k₁, v₁⟩ := kv
    by_cases h : k = k₁
    · simp [mapRemove, h]
    · simp only [mapRemove, if_neg h]
      intro hn
      rw [ih hn]

theorem mapRemove_length (k : Nat) (v : GreenSpace)
    (l : List (Nat × GreenSpace)) :
    (mapRemove k l).1 = some v → (mapRemove k l).2.length + 1 = l.length := by
  induction l with
  | nil => simp [mapRemove]
  | cons kv rest ih =>
    obtain ⟨k₁, v₁⟩ := kv
    by_cases h : k = k₁
    · simp [mapRemove, h]
    · simp only [mapRemove, if_neg h, List.length_cons]
      intro hv
      rw [← ih hv]

theorem mapRemove_sublist (k : Nat) (l : List (Nat × GreenSpace)) :
    (mapRemove k l).2.Sublist l := by
  induction l with
  | nil => simp [mapRemove]
  | cons kv rest ih =>
    obtain ⟨k₁, v₁⟩ := kv
    by_cases h : k = k₁
    · simp only [mapRemove, if_pos h]
      exact List.sublist_cons_self _ _
    · simp only [mapRemove, if_neg h]
      exact ih.cons₂ _

theorem mapGet_mapRemove_self (k : Nat) (l : List (Nat × GreenSpace))
    (h : List.Pairwise (fun a b => a.1 < b.1) l) :
    mapGet k (mapRemove k l).2 = none := by
  induction l with
  | nil => simp [mapRemove, mapGet]
  | cons kv rest ih =>
    obtain ⟨k₁, v₁⟩ := kv
    rcases List.pairwise_cons.1 h with ⟨hhead, htail⟩
    by_cases h₂ : k = k₁
    · subst h₂
      simp only [mapRemove, if_pos rfl]
      exact mapGet_eq_none_of _ _ fun kv hm => by
        have := hhead kv hm
        omega
    · simp only [mapRemove, if_neg h₂, mapGet]
      exact ih htail

theorem mapInsert_mem (k : Nat) (v : GreenSpace) (l : List (Nat × GreenSpace))
    (x : Nat × GreenSpace) : x ∈ mapInsert k v l → x = (k, v) ∨ x ∈ l := by
  induction l with
  | nil => simp [mapInsert]
  | cons kv rest ih =>
    obtain ⟨k₁, v₁⟩ := kv
    by_cases h₁ : k < k₁
    · simp [mapInsert, h₁]
    · by_cases h₂ : k = k₁
      · simp [mapInsert, h₁, h₂]
        tauto
      · simp only [mapInsert, if_neg h₁, if_neg h₂, List.mem_cons]
        rintro (rfl | hx)
        · exact Or.inr (Or.inl rfl)
        · rcases ih hx with hx | hx
          · exact Or.inl hx
          · exact Or.inr (Or.inr hx)

theorem mapInsert_pairwise (k : Nat) (v : GreenSpace)
    (l : List (Nat × GreenSpace))
    (h : List.Pairwise (fun a b => a.1 < b.1) l) :
    List.Pairwise (fun a b => a.1 < b.1) (mapInsert k v l) := by
  induction l with
  | nil => simp [mapInsert]
  | cons kv rest ih =>
    obtain ⟨k₁, v₁⟩ := kv
    rcases List.pairwise_cons.1 h with ⟨hhead, htail⟩
    by_cases h₁ : k < k₁
    · simp only [mapInsert, if_pos h₁]
      refine List.pairwise_cons.2 ⟨?_, h⟩
      intro x hx
      rcases List.mem_cons.1 hx with rfl | hx
      · exact h₁
      · exact lt_trans h₁ (hhead x hx)
    · by_cases h₂ : k = k₁
      · simp only [mapInsert, if_neg h₁, if_pos h₂]
        refine List.pairwise_cons.2 ⟨?_, htail⟩
        intro x hx
        subst h₂
        exact hhead x hx
      · simp only [mapInsert, if_neg h₁, if_neg h₂]
        refine List.pairwise_cons.2 ⟨?_, ih htail⟩
        intro x hx
        rcases mapInsert_mem _ _ _ _ hx with rfl | hx
        · omega
        · exact hhead x hx

theorem storeWF_initState : StoreWF initState.store := by
  constructor <;> simp [initState]

theorem storeWF_do_insert (v : GreenSpace) (s : AppState)
    (h : StoreWF s.store) : StoreWF (do_insert_green_space v s).store := by
  refine ⟨mapInsert_pairwise _ _ _ h.1, ?_⟩
  intro kv hm
  rcases mapInsert_mem _ _ _ _ hm with rfl | hm
  · rfl
  · exact h.2 kv hm

theorem storeWF_delete (s : AppState) (id : Nat)
    (h : StoreWF s.store) : StoreWF (delete_green_space s id).2.store := by
  have hsub : (delete_green_space s id).2.store.Sublist s.store := by
    simp only [delete_green_space]
    split <;> exact mapRemove_sublist _ _
  exact ⟨h.1.sublist hsub, fun kv hm => h.2 kv (hsub.mem hm)⟩

theorem filterMap_eq_filter_map (p : GreenSpace → Bool)
    (l : List (Nat × GreenSpace)) :
    (l.filterMap fun kv => if p kv.2 then some kv.2 else none)
      = (l.map Prod.snd).filter p := by
  induction l with
  | nil => rfl
  | cons kv rest ih =>
    by_cases h : p kv.2 <;>
      simp [List.filterMap_cons, List.filter_cons, h, ih]

theorem map_snd_pairwise (l : List (Nat × GreenSpace)) (hwf : StoreWF l) :
    List.Pairwise (fun a b : GreenSpace => a.id < b.id) (l.map Prod.snd) := by
  rw [List.pairwise_map]
  refine List.Pairwise.imp_of_mem ?_ hwf.1
  intro a b ha hb hlt
  rw [← hwf.2 a ha, ← hwf.2 b hb]
  exact hlt

theorem filter_snd_pairwise (p : GreenSpace → Bool)
    (l : List (Nat × GreenSpace)) (hwf : StoreWF l) :
    List.Pairwise (fun a b : GreenSpace => a.id < b.id)
      ((l.map Prod.snd).filter p) :=
  (map_snd_pairwise l hwf).sublist (List.filter_sublist _)

theorem filter_true_of (p : GreenSpace → Bool) (l : List GreenSpace)
    (h : ∀ x, p x = true) : l.filter p = l := by
  induction l with
  | nil => rfl
  | cons x rest ih => simp [List.filter_cons, h x, ih]

theorem lebDecode_leb (n : Nat) :
    ∀ rest, lebDecode (leb n ++ rest) = some (n, rest) := by
  induction n using Nat.strong_induction_on with
  | _ n ih =>
    intro rest
    by_cases h : n < 128
    · rw [leb, if_pos h]
      simp [lebDecode, h]
    · rw [leb, if_neg h]
      have h₁ : ¬ (n % 128 + 128 < 128) := by omega
      have h₂ : n % 128 + 128 < 256 := by omega
      have h₃ : n / 128 < n := Nat.div_lt_self (by omega) (by omega)
      have h₄ : n / 128 ≠ 0 := by omega
      simp [lebDecode, h₁, h₂, h₄, ih _ h₃]
      omega

theorem lebDecode_canonical (bs : List Nat) :
    ∀ n rest, lebDecode bs = some (n, rest) → bs = leb n ++ rest := by
  induction bs with
  | nil => simp [lebDecode]
  | cons b t ih =>
    intro n rest h
    by_cases h₁ : b < 128
    · simp only [lebDecode, if_pos h₁, Option.some.injEq, Prod.mk.injEq] at h
      obtain ⟨rfl, rfl⟩ := h
      rw [leb, if_pos h₁]
      rfl
    · by_cases h₂ : b < 256
      · simp only [lebDecode, if_neg h₁, if_pos h₂] at h
        cases hrec : lebDecode t with
        | none => rw [hrec] at h; simp at h
        | some mr =>
          obtain ⟨m, rest₁⟩ := mr
          rw [hrec] at h
          by_cases hm : m = 0
          · simp [hm] at h
          · simp only [if_neg hm, Option.some.injEq, Prod.mk.injEq] at h
            obtain ⟨rfl, rfl⟩ := h
            have ht := ih m rest₁ hrec
            have hn : ¬ (b - 128 + 128 * m < 128) := by omega
            rw [leb, if_neg hn]
            have e₁ : (b - 128 + 128 * m) % 128 + 128 = b := by omega
            have e₂ : (b - 128 + 128 * m) / 128 = m := by omega
            rw [e₁, e₂, ht]
            rfl
      · simp [lebDecode, h₁, h₂] at h

theorem char_toNat_valid (c : Char) : c.toNat.isValidChar := c.valid

theorem char_toNat_ofNat (n : Nat) (h : n.isValidChar) :
    (Char.ofNat n).toNat = n := by
  simp [Char.ofNat, Char.ofNatAux, Char.toNat, h, UInt32.toNat]

theorem charsDec_charsEnc (cs : List Char) :
    ∀ rest, charsDec cs.length (charsEnc cs ++ rest) = some (cs, rest) := by
  induction cs with
  | nil => intro rest; simp [charsEnc, charsDec]
  | cons c cs ih =>
    intro rest
    simp only [charsEnc, List.append_assoc, List.length_cons, charsDec,
      lebDecode_leb, if_pos (char_toNat_valid c), ih, Char.ofNat_toNat]

theorem charsDec_canonical (k : Nat) :
    ∀ bs cs rest, charsDec k bs = some (cs, rest) →
      cs.length = k ∧ bs = charsEnc cs ++ rest := by
  induction k with
  | zero =>
    intro bs cs rest h
    simp only [charsDec, Option.some.injEq, Prod.mk.injEq] at h
    obtain ⟨rfl, rfl⟩ := h
    simp [charsEnc]
  | succ k ih =>
    intro bs cs rest h
    simp only [charsDec] at h
    split at h
    · rename_i n bs₁ hleb
      split at h
      · rename_i hv
        split at h
        · rename_i cs₁ rest₁ hcd
          simp only [Option.some.injEq, Prod.mk.injEq] at h
          obtain ⟨rfl, rfl⟩ := h
          obtain ⟨hlen, hbs₁⟩ := ih bs₁ cs₁ rest₁ hcd
          constructor
          · simp [hlen]
          · have hb := lebDecode_canonical bs n bs₁ hleb
            simp only [charsEnc, char_toNat_ofNat n hv, List.append_assoc]
            rw [hb, hbs₁]
        · simp at h
      · simp at h
    · simp at h

theorem strDec_strEnc (s : String) (rest : List Nat) :
    strDec (strEnc s ++ rest) = some (s, rest) := by
  obtain ⟨d⟩ := s
  simp only [strEnc, strDec, List.append_assoc, lebDecode_leb]
  rw [charsDec_charsEnc]

theorem strDec_canonical (bs : List Nat) (s : String) (rest : List Nat)
    (h : strDec bs = some (s, rest)) : bs = strEnc s ++ rest := by
  simp only [strDec] at h
  split at h
  · rename_i k bs₁ hleb
    split at h
    · rename_i cs rest₁ hcd
      simp only [Option.some.injEq, Prod.mk.injEq] at h
      obtain ⟨rfl, rfl⟩ := h
      obtain ⟨hlen, hbs₁⟩ := charsDec_canonical k bs₁ cs rest₁ hcd
      have hb := lebDecode_canonical bs k bs₁ hleb
      simp only [strEnc, List.append_assoc]
      rw [hb, hbs₁, hlen]
    · simp at h
  · simp at h

theorem strDec_strEnc_nil (s : String) : strDec (strEnc s) = some (s, []) := by
  have := strDec_strEnc s []
  simpa using this

theorem from_bytes_to_bytes (r : GreenSpace) :
    from_bytes (to_bytes r) = some r := by
  obtain ⟨id, name, location, description⟩ := r
  simp [to_bytes, MAGIC, from_bytes, lebDecode_leb, strDec_strEnc,
    strDec_strEnc_nil, List.append_assoc]

theorem to_bytes_from_bytes (bs : List Nat) (r : GreenSpace)
    (h : from_bytes bs = some r) : to_bytes r = bs := by
  rcases bs with _ | ⟨m₀, _ | ⟨m₁, _ | ⟨m₂, _ | ⟨m₃, bs₀⟩⟩⟩⟩
  · simp [from_bytes] at h
  · simp [from_bytes] at h
  · simp [from_bytes] at h
  · simp [from_bytes] at h
  · simp only [from_bytes] at h
    split at h
    · rename_i hm
      obtain ⟨rfl, rfl, rfl, rfl⟩ := hm
      split at h
      · rename_i id bs₁ hleb
        split at h
        · rename_i name bs₂ hs₁
          split at h
          · rename_i location bs₃ hs₂
            split at h
            · rename_i description bs₄ hs₃
              split at h
              · simp only [Option.some.injEq] at h
                subst h
                have e₀ := lebDecode_canonical bs₀ id bs₁ hleb
                have e₁ := strDec_canonical bs₁ name bs₂ hs₁
                have e₂ := strDec_canonical bs₂ location bs₃ hs₂
                have e₃ := strDec_canonical bs₃ description [] hs₃
                simp only [to_bytes, MAGIC, List.cons_append, List.nil_append,
                  List.append_assoc]
                rw [e₀, e₁, e₂, e₃]
                simp
              · simp at h
            · simp at h
          · simp at h
        · simp at h
      · simp at h
    · simp at h

theorem delete_counter (s : AppState) (id : Nat) :
    (delete_green_space s id).2.counter = s.counter := by
  simp only [delete_green_space]
  split <;> rfl

theorem applyOp_counter_le (s : AppState) (op : Op) :
    s.counter ≤ (applyOp s op).1.counter := by
  cases op with
  | addSpace p =>
    simp [applyOp, add_green_space, do_insert_green_space]
  | delSpace id =>
    simp [applyOp, delete_counter]

theorem runOps_counter_le (ops : List Op) :
    ∀ s : AppState, s.counter ≤ (runOps s ops).1.counter := by
  induction ops with
  | nil => intro s; simp [runOps]
  | cons op ops ih =>
    intro s
    simp only [runOps]
    exact le_trans (applyOp_counter_le s op) (ih (applyOp s op).1)

theorem runOps_ids_lb (ops : List Op) :
    ∀ s : AppState, ∀ i ∈ (runOps s ops).2, s.counter ≤ i := by
  induction ops with
  | nil => intro s i hi; simp [runOps] at hi
  | cons op ops ih =>
    intro s i hi
    simp only [runOps, List.mem_append] at hi
    cases op with
    | addSpace p =>
      rcases hi with hi | hi
      · simp [applyOp, add_green_space] at hi
        omega
      · have h₁ := ih (applyOp s (.addSpace p)).1 i hi
        have h₂ : (applyOp s (Op.addSpace p)).1.counter = s.counter + 1 := rfl
        omega
    | delSpace id =>
      rcases hi with hi | hi
      · simp [applyOp] at hi
      · have h₁ := ih (applyOp s (.delSpace id)).1 i hi
        have h₂ : (applyOp s (Op.delSpace id)).1.counter = s.counter :=
          delete_counter s id
        omega

theorem runOps_ids_ub (ops : List Op) :
    ∀ s : AppState, ∀ i ∈ (runOps s ops).2, i < (runOps s ops).1.counter := by
  induction ops with
  | nil => intro s i hi; simp [runOps] at hi
  | cons op ops ih =>
    intro s i hi
    simp only [runOps, List.mem_append] at hi
    cases op with
    | addSpace p =>
      rcases hi with hi | hi
      · simp [applyOp, add_green_space] at hi
        subst hi
        have h₁ : (applyOp s (Op.addSpace p)).1.counter = s.counter + 1 := rfl
        have h₂ := runOps_counter_le ops (applyOp s (.addSpace p)).1
        simp only [runOps]
        omega
      · exact ih (applyOp s (.addSpace p)).1 i hi
    | delSpace id =>
      rcases hi with hi | hi
      · simp [applyOp] at hi
      · exact ih (applyOp s (.delSpace id)).1 i hi

theorem runOps_pairwise (ops : List Op) :
    ∀ s : AppState, List.Pairwise (fun a b => a < b) (runOps s ops).2 := by
  induction ops with
  | nil => intro s; simp [runOps]
  | cons op ops ih =>
    intro s
    simp only [runOps]
    cases op with
    | addSpace p =>
      have hl : (applyOp s (Op.addSpace p)).2 = [s.counter] := rfl
      rw [hl]
      refine List.pairwise_append.2 ⟨List.pairwise_singleton _ _, ih _, ?_⟩
      intro a ha b hb
      have hb₁ := runOps_ids_lb ops (applyOp s (.addSpace p)).1 b hb
      have h₂ : (applyOp s (Op.addSpace p)).1.counter = s.counter + 1 := rfl
      simp only [List.mem_singleton] at ha
      omega
    | delSpace id =>
      have hl : (applyOp s (Op.delSpace id)).2 = [] := rfl
      rw [hl]
      simpa using ih (applyOp s (.delSpace id)).1

/-- C1 counterexample: a payload with an empty `name` is not rejected —
`add_green_space` still returns a record and the store changes. -/
theorem add_accepts_empty_fields :
    (add_green_space initState ⟨"", "NYC", "park"⟩).1 = some ⟨0, "", "NYC", "park"⟩
  ∧ (add_green_space initState ⟨"", "NYC", "park"⟩).2.store ≠ initState.store := by
  constructor
  · rfl
  · decide

/-- C1 (amended): `add_green_space` performs no validation at all — for every
payload, including payloads with empty `name`, `location` or `description`,
it returns `some` record with the payload fields and inserts that record into
the store. -/
theorem add_no_validation (s : AppState) (p : GreenSpaceUpdatePayload) :
    (add_green_space s p).1 = some ⟨s.counter, p.name, p.location, p.description⟩
  ∧ (add_green_space s p).2 =
      ⟨s.counter + 1,
       mapInsert s.counter ⟨s.counter, p.name, p.location, p.description⟩
         s.store⟩ :=
  ⟨rfl, rfl⟩

/-- C2: each search operation returns exactly the sublist of
`get_all_green_spaces` whose relevant field contains the query as a
case-sensitive substring, the empty query returns every record, and in a
well-formed store the results are in ascending id order. -/
theorem search_matches_containment (s : AppState) (q : String)
    (hwf : StoreWF s.store) :
    search_green_spaces_by_name s q =
      .ok ((s.store.map Prod.snd).filter fun sp => strContains sp.name q)
  ∧ search_green_spaces_by_location s q =
      .ok ((s.store.map Prod.snd).filter fun sp => strContains sp.location q)
  ∧ search_green_spaces_by_description s q =
      .ok ((s.store.map Prod.snd).filter fun sp => strContains sp.description q)
  ∧ get_all_green_spaces s = .ok (s.store.map Prod.snd)
  ∧ (∀ hay : String, strContains hay q = true ↔
      ∃ p t, hay.data = p ++ q.data ++ t)
  ∧ search_green_spaces_by_name s "" = get_all_green_spaces s
  ∧ search_green_spaces_by_location s "" = get_all_green_spaces s
  ∧ search_green_spaces_by_description s "" = get_all_green_spaces s
  ∧ List.Pairwise (fun a b : GreenSpace => a.id < b.id)
      ((s.store.map Prod.snd).filter fun sp => strContains sp.name q)
  ∧ List.Pairwise (fun a b : GreenSpace => a.id < b.id)
      ((s.store.map Prod.snd).filter fun sp => strContains sp.location q)
  ∧ List.Pairwise (fun a b : GreenSpace => a.id < b.id)
      ((s.store.map Prod.snd).filter fun sp => strContains sp.description q) := by
  refine ⟨congrArg Except.ok
      (filterMap_eq_filter_map (fun sp => strContains sp.name q) s.store),
    congrArg Except.ok
      (filterMap_eq_filter_map (fun sp => strContains sp.location q) s.store),
    congrArg Except.ok
      (filterMap_eq_filter_map (fun sp => strContains sp.description q)
        s.store),
    rfl, fun hay => strContains_iff hay q, ?_, ?_, ?_,
    filter_snd_pairwise _ _ hwf, filter_snd_pairwise _ _ hwf,
    filter_snd_pairwise _ _ hwf⟩
  · have e := filterMap_eq_filter_map (fun sp => strContains sp.name "") s.store
    rw [filter_true_of _ _ (fun x => strContains_empty x.name)] at e
    exact congrArg Except.ok e
  · have e := filterMap_eq_filter_map (fun sp => strContains sp.location "")
      s.store
    rw [filter_true_of _ _ (fun x => strContains_empty x.location)] at e
    exact congrArg Except.ok e
  · have e := filterMap_eq_filter_map (fun sp => strContains sp.description "")
      s.store
    rw [filter_true_of _ _ (fun x => strContains_empty x.description)] at e
    exact congrArg Except.ok e

/-- C2 witness: the hypotheses of `search_matches_containment` hold at a
concrete two-record store, and the conclusion applies there. -/
theorem search_matches_containment_witness :
    StoreWF exState₂.store
  ∧ search_green_spaces_by_name exState₂ "ar" =
      .ok ((exState₂.store.map Prod.snd).filter fun sp =>
        strContains sp.name "ar") :=
  ⟨⟨by decide, by decide⟩,
   (search_matches_containment exState₂ "ar" ⟨by decide, by decide⟩).1⟩

/-- C3 counterexample: the very first `add_green_space` call from the initial
state returns id 0, not id 1 — `Cell::set` hands back the previous counter
value, which the code uses as the fresh id. -/
theorem first_id_is_zero :
    Option.map GreenSpace.id
      (add_green_space initState ⟨"Central Park", "NYC", "Big park"⟩).1 = some 0
  ∧ Option.map GreenSpace.id
      (add_green_space initState ⟨"Central Park", "NYC", "Big park"⟩).1 ≠ some 1 := by
  constructor
  · rfl
  · decide

/-- C3 (amended): the first add from the initial state returns id 0
(return-then-increment semantics), and every consecutive pair of adds returns
consecutive ids. -/
theorem ids_start_at_zero_and_consecutive (s : AppState)
    (p q : GreenSpaceUpdatePayload) :
    (∃ r, (add_green_space initState p).1 = some r ∧ r.id = 0)
  ∧ (∃ r r₁, (add_green_space s p).1 = some r
      ∧ (add_green_space (add_green_space s p).2 q).1 = some r₁
      ∧ r₁.id = r.id + 1) :=
  ⟨⟨_, rfl, rfl⟩, _, _, rfl, rfl, rfl⟩

/-- C4: over any sequence of adds and deletes from any state, the ids issued
by the adds are strictly increasing in call order (hence pairwise distinct
and never reissued after a delete), the counter never decreases, and the
final counter is strictly greater than every issued id. -/
theorem ids_unique_monotone (s : AppState) (ops : List Op) :
    List.Pairwise (fun a b => a < b) (runOps s ops).2
  ∧ (runOps s ops).2.Nodup
  ∧ s.counter ≤ (runOps s ops).1.counter
  ∧ ∀ i ∈ (runOps s ops).2, i < (runOps s ops).1.counter :=
  ⟨runOps_pairwise ops s,
   List.Pairwise.imp (fun h => Nat.ne_of_lt h) (runOps_pairwise ops s),
   runOps_counter_le ops s,
   runOps_ids_ub ops s⟩

/-- C4 witness: on a concrete add–delete–add run the issued id 0 is below the
final counter. -/
theorem ids_unique_monotone_witness :
    0 ∈ (runOps initState
      [Op.addSpace exPayload, Op.delSpace 0, Op.addSpace exPayload]).2
  ∧ 0 < (runOps initState
      [Op.addSpace exPayload, Op.delSpace 0, Op.addSpace exPayload]).1.counter :=
  ⟨by decide,
   (ids_unique_monotone initState
      [Op.addSpace exPayload, Op.delSpace 0, Op.addSpace exPayload]).2.2.2
      0 (by decide)⟩

/-- C5: when `add_green_space` returns record r, an immediately following
`get_green_space r.id` on the new state returns `Ok r`, and r carries the
payload fields with the freshly issued id. -/
theorem get_after_add (s : AppState) (p : GreenSpaceUpdatePayload)
    (r : GreenSpace) (h : (add_green_space s p).1 = some r) :
    get_green_space (add_green_space s p).2 r.id = .ok r
  ∧ r.id = s.counter ∧ r.name = p.name ∧ r.location = p.location
  ∧ r.description = p.description := by
  have h₁ : some (⟨s.counter, p.name, p.location, p.description⟩ : GreenSpace)
      = some r := h
  injection h₁ with h₁
  subst h₁
  refine ⟨?_, rfl, rfl, rfl, rfl⟩
  simp [get_green_space, add_green_space, do_insert_green_space,
    mapGet_mapInsert_self]

/-- C5 witness: get-after-add at a concrete state and payload. -/
theorem get_after_add_witness :
    (add_green_space initState exPayload).1 =
      some ⟨0, "Trails", "Berlin", "Lakeside"⟩
  ∧ get_green_space (add_green_space initState exPayload).2
      (GreenSpace.id ⟨0, "Trails", "Berlin", "Lakeside"⟩) =
      .ok ⟨0, "Trails", "Berlin", "Lakeside"⟩ :=
  ⟨rfl,
   (get_after_add initState exPayload ⟨0, "Trails", "Berlin", "Lakeside"⟩
      rfl).1⟩

/-- C6: deleting a present id returns `Ok` with the stored record, after
which `get_green_space` on that id reports `NotFound` and the count drops by
exactly one. -/
theorem delete_then_get (s : AppState) (id : Nat) (r : GreenSpace)
    (hs : List.Pairwise (fun a b => a.1 < b.1) s.store)
    (h : mapGet id s.store = some r) :
    (delete_green_space s id).1 = .ok r
  ∧ (∃ m, get_green_space (delete_green_space s id).2 id =
      .error (.NotFound m))
  ∧ get_green_space_count s = .ok s.store.length
  ∧ 1 ≤ s.store.length
  ∧ get_green_space_count (delete_green_space s id).2 =
      .ok (s.store.length - 1) := by
  have hfst : (mapRemove id s.store).1 = some r := by
    rw [mapRemove_fst]; exact h
  have hget : mapGet id (mapRemove id s.store).2 = none :=
    mapGet_mapRemove_self id s.store hs
  have hlen := mapRemove_length id r s.store hfst
  refine ⟨?_, ?_, rfl, by omega, ?_⟩
  · simp [delete_green_space, hfst]
  · exact ⟨"A green space with id=" ++ toString id ++ " not found",
      by simp [delete_green_space, hfst, get_green_space, hget]⟩
  · simp [delete_green_space, hfst, get_green_space_count]
    omega

/-- C6 witness: delete-then-get at a concrete one-record store. -/
theorem delete_then_get_witness :
    List.Pairwise (fun a b => a.1 < b.1) exState.store
  ∧ mapGet 2 exState.store = some exSpace
  ∧ (delete_green_space exState 2).1 = .ok exSpace :=
  ⟨by decide, by decide,
   (delete_then_get exState 2 exSpace (by decide) (by decide)).1⟩

/-- C7: `get_green_space`, `update_green_space`,
`update_green_space_location` and `delete_green_space` return a `NotFound`
error exactly when the id is absent; the error message contains the decimal
id, the three mutating operations leave the state unchanged on error, and all
four succeed when the id is present. -/
theorem notfound_characterisation (s : AppState) (id : Nat)
    (p : GreenSpaceUpdatePayload) (L : String) :
    (mapGet id s.store = none →
        (∃ m, get_green_space s id = .error (.NotFound m)
          ∧ strContains m (toString id) = true)
      ∧ (∃ m, (update_green_space s id p).1 = .error (.NotFound m)
          ∧ strContains m (toString id) = true)
      ∧ (update_green_space s id p).2 = s
      ∧ (∃ m, (update_green_space_location s id L).1 = .error (.NotFound m)
          ∧ strContains m (toString id) = true)
      ∧ (update_green_space_location s id L).2 = s
      ∧ (∃ m, (delete_green_space s id).1 = .error (.NotFound m)
          ∧ strContains m (toString id) = true)
      ∧ (delete_green_space s id).2 = s)
  ∧ (∀ r, mapGet id s.store = some r →
        get_green_space s id = .ok r
      ∧ (∃ v, (update_green_space s id p).1 = .ok v)
      ∧ (∃ v, (update_green_space_location s id L).1 = .ok v)
      ∧ (∃ v, (delete_green_space s id).1 = .ok v)) := by
  constructor
  · intro hnone
    have hrm : (mapRemove id s.store).1 = none := by
      rw [mapRemove_fst]; exact hnone
    have hrm₂ : (mapRemove id s.store).2 = s.store := mapRemove_none _ _ hrm
    refine ⟨⟨_, ?_, strContains_append "A green space with id=" (toString id)
        " not found"⟩,
      ⟨_, ?_, strContains_append
        ("Couldn" ++ apostrophe ++ "t update a green space with id=")
        (toString id) ". Space not found"⟩, ?_,
      ⟨_, ?_, strContains_append
        ("Couldn" ++ apostrophe ++ "t update location for green space with id=")
        (toString id) ". Space not found"⟩, ?_,
      ⟨_, ?_, strContains_append
        ("Couldn" ++ apostrophe ++ "t delete a green space with id=")
        (toString id) ". Space not found"⟩, ?_⟩
    · simp [get_green_space, hnone]
    · simp [update_green_space, hnone]
    · simp [update_green_space, hnone]
    · simp [update_green_space_location, hnone]
    · simp [update_green_space_location, hnone]
    · simp [delete_green_space, hrm]
    · simp only [delete_green_space, hrm]
      rw [hrm₂]
  · intro r hr
    have hrm : (mapRemove id s.store).1 = some r := by
      rw [mapRemove_fst]; exact hr
    exact ⟨by simp [get_green_space, hr],
      ⟨⟨r.id, p.name, p.location, p.description⟩,
        by simp [update_green_space, hr]⟩,
      ⟨⟨r.id, r.name, L, r.description⟩,
        by simp [update_green_space_location, hr]⟩,
      ⟨r, by simp [delete_green_space, hrm]⟩⟩

/-- C7 witness: at a concrete store, id 7 is absent and errors with a message
naming 7, while id 2 is present and succeeds. -/
theorem notfound_characterisation_witness :
    mapGet 7 exState.store = none
  ∧ (∃ m, get_green_space exState 7 = .error (.NotFound m)
      ∧ strContains m (toString 7) = true)
  ∧ mapGet 2 exState.store = some exSpace
  ∧ get_green_space exState 2 = .ok exSpace :=
  ⟨by decide,
   ((notfound_characterisation exState 7 exPayload "L").1 (by decide)).1,
   by decide,
   ((notfound_characterisation exState 2 exPayload "L").2 exSpace
      (by decide)).1⟩

/-- C8: updating the location of a stored record twice with the same value
returns the same record both times, and after either call `get_green_space`
shows the new location with id, name and description unchanged. -/
theorem update_location_idempotent (s : AppState) (id : Nat) (L : String)
    (r : GreenSpace) (hids : ∀ kv ∈ s.store, kv.1 = kv.2.id)
    (h : mapGet id s.store = some r) :
    ∃ r₁,
      (update_green_space_location s id L).1 = .ok r₁
    ∧ (update_green_space_location
        (update_green_space_location s id L).2 id L).1 = .ok r₁
    ∧ get_green_space (update_green_space_location s id L).2 id = .ok r₁
    ∧ get_green_space (update_green_space_location
        (update_green_space_location s id L).2 id L).2 id = .ok r₁
    ∧ r₁.location = L ∧ r₁.id = r.id ∧ r₁.name = r.name
    ∧ r₁.description = r.description := by
  obtain ⟨rid, rname, rloc, rdesc⟩ := r
  have hid : id = rid := by
    have hm := mapGet_mem id _ s.store h
    simpa using hids _ hm
  subst hid
  have e₁ : update_green_space_location s id L =
      (.ok ⟨id, rname, L, rdesc⟩,
       do_insert_green_space ⟨id, rname, L, rdesc⟩ s) := by
    simp [update_green_space_location, h]
  have hg₁ : mapGet id
      (do_insert_green_space ⟨id, rname, L, rdesc⟩ s).store =
      some ⟨id, rname, L, rdesc⟩ := by
    simpa [do_insert_green_space] using
      mapGet_mapInsert_self id ⟨id, rname, L, rdesc⟩ s.store
  have e₂ : update_green_space_location
      (update_green_space_location s id L).2 id L =
      (.ok ⟨id, rname, L, rdesc⟩,
       do_insert_green_space ⟨id, rname, L, rdesc⟩
         (do_insert_green_space ⟨id, rname, L, rdesc⟩ s)) := by
    rw [e₁]
    simp [update_green_space_location, hg₁]
  have hg₂ : mapGet id
      (do_insert_green_space ⟨id, rname, L, rdesc⟩
        (do_insert_green_space ⟨id, rname, L, rdesc⟩ s)).store =
      some ⟨id, rname, L, rdesc⟩ := by
    simpa [do_insert_green_space] using
      mapGet_mapInsert_self id ⟨id, rname, L, rdesc⟩
        (do_insert_green_space ⟨id, rname, L, rdesc⟩ s).store
  refine ⟨⟨id, rname, L, rdesc⟩, ?_, ?_, ?_, ?_, rfl, rfl, rfl, rfl⟩
  · rw [e₁]
  · rw [e₂]
  · rw [e₁]
    simp [get_green_space, hg₁]
  · rw [e₂]
    simp [get_green_space, hg₂]

/-- C8 witness: idempotent location update at a concrete store. -/
theorem update_location_idempotent_witness :
    (∀ kv ∈ exState.store, kv.1 = kv.2.id)
  ∧ mapGet 2 exState.store = some exSpace
  ∧ ∃ r₁,
      (update_green_space_location exState 2 "Paris").1 = .ok r₁
    ∧ (update_green_space_location
        (update_green_space_location exState 2 "Paris").2 2 "Paris").1 =
        .ok r₁
    ∧ get_green_space (update_green_space_location exState 2 "Paris").2 2 =
        .ok r₁
    ∧ get_green_space (update_green_space_location
        (update_green_space_location exState 2 "Paris").2 2 "Paris").2 2 =
        .ok r₁
    ∧ r₁.location = "Paris" ∧ r₁.id = exSpace.id ∧ r₁.name = exSpace.name
    ∧ r₁.description = exSpace.description :=
  ⟨by decide, by decide,
   update_location_idempotent exState 2 "Paris" exSpace (by decide)
     (by decide)⟩

/-- C9: the record encoding round-trips — decoding an encoded record (within
the 1024-byte bound) restores it exactly, and any byte string accepted by the
decoder re-encodes to itself. -/
theorem storable_roundtrip (r : GreenSpace) (bs : List Nat) :
    ((to_bytes r).length ≤ MAX_SIZE → from_bytes (to_bytes r) = some r)
  ∧ ∀ r₁, from_bytes bs = some r₁ → to_bytes r₁ = bs :=
  ⟨fun _ => from_bytes_to_bytes r, fun r₁ h => to_bytes_from_bytes bs r₁ h⟩

/-- C9 witness: the round-trip at a concrete record and its concrete byte
string. -/
theorem storable_roundtrip_witness :
    (to_bytes ⟨0, "", "", ""⟩).length ≤ MAX_SIZE
  ∧ from_bytes (to_bytes ⟨0, "", "", ""⟩) = some ⟨0, "", "", ""⟩
  ∧ from_bytes [68, 73, 68, 76, 0, 0, 0, 0] = some ⟨0, "", "", ""⟩
  ∧ to_bytes ⟨0, "", "", ""⟩ = [68, 73, 68, 76, 0, 0, 0, 0] := by
  have hlen : (to_bytes (⟨0, "", "", ""⟩ : GreenSpace)).length ≤ MAX_SIZE := by
    simp [to_bytes, strEnc, charsEnc, MAGIC, MAX_SIZE, leb]
  have hdec : from_bytes [68, 73, 68, 76, 0, 0, 0, 0] =
      some (⟨0, "", "", ""⟩ : GreenSpace) := by
    simp [from_bytes, lebDecode, charsDec, strDec]
  exact ⟨hlen,
    (storable_roundtrip ⟨0, "", "", ""⟩ []).1 hlen,
    hdec,
    (storable_roundtrip ⟨0, "", "", ""⟩ [68, 73, 68, 76, 0, 0, 0, 0]).2
      ⟨0, "", "", ""⟩ hdec⟩

/-- C10: the five read-only query operations always return `Ok`; their error
branch is unreachable. -/
theorem queries_never_error (s : AppState) (q : String) :
    (∃ v, get_all_green_spaces s = .ok v)
  ∧ (∃ v, search_green_spaces_by_name s q = .ok v)
  ∧ (∃ v, search_green_spaces_by_location s q = .ok v)
  ∧ (∃ v, search_green_spaces_by_description s q = .ok v)
  ∧ (∃ v, get_green_space_count s = .ok v) :=
  ⟨⟨_, rfl⟩, ⟨_, rfl⟩, ⟨_, rfl⟩, ⟨_, rfl⟩, ⟨_, rfl⟩⟩

end GreenSpaceUrban
